import Mathlib

/-!
Verification of the wavelet-based digital grain size analyser
(`dgs_wav_p.py`) against its natural-language specification.

The Python source is shallowly embedded below: pure numeric code becomes
Lean functions over `ℝ`, `ℚ`, `ℕ` and `List`; Python 2 integer division
becomes `Nat` division; `int()` / `np.fix` on nonnegative reals become
`Int.floor`; `numpy` FFTs become explicit DFT sums over `ℂ`.
-/

open scoped BigOperators

/-! ## Distribution statistics (processimage, lines 447-457)

`mnsz = np.sum(svarcwt*scales)`, `srt = sqrt(np.sum(svarcwt*(scales-mnsz)**2))`,
`sk = sum(svarcwt*(scales-mnsz)**3)/(100*srt**3)`,
`kurt = sum(svarcwt*(scales-mnsz)**4)/(100*srt**4)`. -/

noncomputable def mnsz (svarcwt scales : List ℝ) : ℝ :=
  (List.zipWith (fun d s => d * s) svarcwt scales).sum

noncomputable def srt (svarcwt scales : List ℝ) : ℝ :=
  Real.sqrt ((List.zipWith (fun d s => d * (s - mnsz svarcwt scales) ^ 2) svarcwt scales).sum)

noncomputable def sk (svarcwt scales : List ℝ) : ℝ :=
  (List.zipWith (fun d s => d * (s - mnsz svarcwt scales) ^ 3) svarcwt scales).sum /
    (100 * (srt svarcwt scales) ^ 3)

noncomputable def kurt (svarcwt scales : List ℝ) : ℝ :=
  (List.zipWith (fun d s => d * (s - mnsz svarcwt scales) ^ 4) svarcwt scales).sum /
    (100 * (srt svarcwt scales) ^ 4)

/-- An elementwise-product sum over two lists, rewritten as an indexed sum. -/
theorem sum_zipWith_eq (f : ℝ → ℝ → ℝ) :
    ∀ a b : List ℝ, (List.zipWith f a b).sum =
      ∑ i in Finset.range (min a.length b.length), f (a.getD i 0) (b.getD i 0) := by
  intro a
  induction a with
  | nil => intro b; simp
  | cons x xs ih =>
    intro b
    cases b with
    | nil => simp
    | cons y ys =>
      simp only [List.zipWith_cons_cons, List.sum_cons, List.length_cons]
      rw [Nat.succ_min_succ, Finset.sum_range_succ']
      simp only [List.getD_cons_succ, List.getD_cons_zero]
      rw [ih ys]
      ring

/-- Claim C3: the four summary statistics are pure functions of the final
(sizes, density) pair, with mean = Σ density·size,
stdev = √(Σ density·(size−mean)²), skewness = Σ density·(size−mean)³/(100·stdev³),
kurtosis = Σ density·(size−mean)⁴/(100·stdev⁴); in particular for
density = [0.5, 0.5] and sizes = [1, 3] the mean is 2 and the stdev is 1. -/
theorem C3_stats_formulas_and_instance :
    (∀ d s : List ℝ, mnsz d s =
      ∑ i in Finset.range (min d.length s.length), d.getD i 0 * s.getD i 0)
  ∧ (∀ d s : List ℝ, srt d s = Real.sqrt
      (∑ i in Finset.range (min d.length s.length), d.getD i 0 * (s.getD i 0 - mnsz d s) ^ 2))
  ∧ (∀ d s : List ℝ, sk d s =
      (∑ i in Finset.range (min d.length s.length), d.getD i 0 * (s.getD i 0 - mnsz d s) ^ 3) /
        (100 * (srt d s) ^ 3))
  ∧ (∀ d s : List ℝ, kurt d s =
      (∑ i in Finset.range (min d.length s.length), d.getD i 0 * (s.getD i 0 - mnsz d s) ^ 4) /
        (100 * (srt d s) ^ 4))
  ∧ mnsz [0.5, 0.5] [1, 3] = 2 ∧ srt [0.5, 0.5] [1, 3] = 1 := by
  have hmean : mnsz [(0.5 : ℝ), 0.5] [1, 3] = 2 := by
    simp [mnsz]; norm_num
  refine ⟨fun d s => sum_zipWith_eq _ d s,
         fun d s => by rw [srt, sum_zipWith_eq],
         fun d s => by rw [sk, sum_zipWith_eq],
         fun d s => by rw [kurt, sum_zipWith_eq],
         hmean, ?_⟩
  rw [srt, hmean]
  have : (List.zipWith (fun d s => d * (s - 2) ^ 2) [(0.5 : ℝ), 0.5] [1, 3]).sum = 1 := by
    simp; norm_num
  rw [this, Real.sqrt_one]

/-! ## Aggregate density normalization (processimage, lines 431-437)

`varcwt1 = varcwt1/np.sum(varcwt1)` and, after Kaiser-window weighting,
`svarcwt = svarcwt/np.sum(svarcwt)`. -/

noncomputable def normalizeSum (v : List ℝ) : List ℝ := v.map (fun a => a / v.sum)

theorem sum_map_div (l : List ℝ) (c : ℝ) : (l.map (fun a => a / c)).sum = l.sum / c := by
  induction l with
  | nil => simp
  | cons x xs ih => simp [ih]; ring

/-- Claim C4: whenever the per-scale variance vector has nonzero sum (and
likewise after elementwise windowing), the aggregate density vector sums to 1
at both normalization points. -/
theorem C4_density_normalized_twice (v w : List ℝ) (h1 : v.sum ≠ 0)
    (h2 : (List.zipWith (fun a b => a * b) (normalizeSum v) w).sum ≠ 0) :
    (normalizeSum v).sum = 1 ∧
    (normalizeSum (List.zipWith (fun a b => a * b) (normalizeSum v) w)).sum = 1 := by
  constructor
  · rw [normalizeSum, sum_map_div, div_self h1]
  · rw [normalizeSum, sum_map_div, div_self h2]

/-- Concrete instantiation of `C4_density_normalized_twice` at v = [2], w = [3]. -/
theorem C4_density_normalized_twice_witness :
    (([2] : List ℝ).sum ≠ 0 ∧
      (List.zipWith (fun a b => a * b) (normalizeSum [2]) [(3 : ℝ)]).sum ≠ 0) ∧
    ((normalizeSum [2]).sum = 1 ∧
      (normalizeSum (List.zipWith (fun a b => a * b) (normalizeSum [2]) [(3 : ℝ)])).sum = 1) := by
  have h1 : ([2] : List ℝ).sum ≠ 0 := by norm_num
  have h2 : (List.zipWith (fun a b => a * b) (normalizeSum [2]) [(3 : ℝ)]).sum ≠ 0 := by
    simp [normalizeSum]
  exact ⟨⟨h1, h2⟩, C4_density_normalized_twice [2] [3] h1 h2⟩

/-! ## Savitzky-Golay parameter validation (sgolay2d, lines 103-110)

`n_terms = (order+1)*(order+2)/2.0`; a `ValueError` is raised when
`window_size % 2 == 0` or when `window_size**2 < n_terms`. -/

def n_terms (order : ℕ) : ℚ := ((order + 1) * (order + 2) : ℕ) / 2

def sgolay2dErr (window_size order : ℕ) : Option String :=
  if window_size % 2 = 0 then some "window_size must be odd"
  else if ((window_size ^ 2 : ℕ) : ℚ) < n_terms order then
    some "order is too high for the window size"
  else none

/-- Claim C8: sgolay2d raises its invalid-parameter error iff the window size
is even or W² is smaller than the (p+1)(p+2)/2 monomial terms of a 2D
polynomial of order p; for every odd W with enough samples it does not raise. -/
theorem C8_sgolay2d_error_iff (W p : ℕ) :
    sgolay2dErr W p ≠ none ↔
      W % 2 = 0 ∨ (W : ℚ) ^ 2 < ((p : ℚ) + 1) * ((p : ℚ) + 2) / 2 := by
  have hn : n_terms p = ((p : ℚ) + 1) * ((p : ℚ) + 2) / 2 := by
    rw [n_terms]; push_cast; ring
  rw [sgolay2dErr, hn]
  split_ifs with h1 h2
  · simp [h1]
  · push_cast at h2
    simp [h2]
  · push_cast at h2
    simp [h1, h2]

/-! ## Batch behaviour on an unreadable image (processimage lines 365-369
and the per-extension driver loops)

`try: im = Image.open(item)... except IOError: print 'cannot open', item;
sys.exit(2)`.  Each entry of the batch is either a decodable image
(`some a`) or an unreadable file (`none`); the run returns the list of
per-image results together with `some code` if it exited early. -/

def runBatch {α β : Type} (process : α → β) : List (Option α) → List β × Option ℕ
  | [] => ([], none)
  | some a :: rest =>
      let r := runBatch process rest
      (process a :: r.1, r.2)
  | none :: _ => ([], some 2)

/-- Claim C9 counterexample: with an unreadable first file followed by a
decodable one, the run exits with status 2 and the remaining image is never
processed — the batch does not skip and continue as claimed. -/
theorem C9_counterexample :
    runBatch (fun n : ℕ => n) [none, some 7] = ([], some 2) ∧
      (runBatch (fun n : ℕ => n) [none, some 7]).1 ≠ [7] := by
  constructor
  · rfl
  · intro h
    simp [runBatch] at h

/-- Claim C9 (amended): when an image cannot be opened or decoded, the whole
run terminates with exit status 2; images after the failing one are not
processed, and only the images before it produce results. -/
theorem C9_amended_exit_on_decode_failure {α β : Type} (process : α → β)
    (pre : List α) (post : List (Option α)) :
    runBatch process (pre.map some ++ none :: post) = (pre.map process, some 2) := by
  induction pre with
  | nil => rfl
  | cons x xs ih => simp [runBatch, ih]

/-! ## Sampled column indices (processimage, line 416)

`for k in range(1,nx-1,density)` — the columns handed to the parallel pool. -/

def sampledColumns (nx density : ℕ) : List ℕ :=
  (List.range ((nx - 2 + (density - 1)) / density)).map (fun i => 1 + i * density)

/-- Claim C10: the dispatcher analyses exactly the columns 1, 1+density,
1+2·density, … strictly below nx−1, in ascending order; neither column 0 nor
column nx−1 is ever analysed. -/
theorem C10_sampled_columns (nx density : ℕ) (hd : 1 ≤ density) :
    (∀ c : ℕ, c ∈ sampledColumns nx density ↔ (∃ i, c = 1 + i * density) ∧ c < nx - 1)
  ∧ (sampledColumns nx density).Pairwise (· < ·)
  ∧ 0 ∉ sampledColumns nx density
  ∧ nx - 1 ∉ sampledColumns nx density := by
  have key : ∀ i, i < (nx - 2 + (density - 1)) / density ↔ i * density < nx - 2 := by
    intro i
    rw [Nat.lt_iff_add_one_le, Nat.le_div_iff_mul_le hd]
    have hmul : (i + 1) * density = i * density + density := by ring
    rw [hmul]
    omega
  have hmem : ∀ c : ℕ, c ∈ sampledColumns nx density ↔
      (∃ i, c = 1 + i * density) ∧ c < nx - 1 := by
    intro c
    simp only [sampledColumns, List.mem_map, List.mem_range]
    constructor
    · rintro ⟨i, hi, rfl⟩
      have := (key i).1 hi
      exact ⟨⟨i, rfl⟩, by omega⟩
    · rintro ⟨⟨i, rfl⟩, hc⟩
      exact ⟨i, (key i).2 (by omega), rfl⟩
  refine ⟨hmem, ?_, ?_, ?_⟩
  · rw [sampledColumns, List.pairwise_map]
    refine List.Pairwise.imp ?_ (List.pairwise_lt_range _)
    intro a b hab
    have := Nat.mul_lt_mul_of_pos_right hab hd
    omega
  · intro h
    obtain ⟨⟨i, hi⟩, _⟩ := (hmem 0).1 h
    omega
  · intro h
    obtain ⟨_, hlt⟩ := (hmem (nx - 1)).1 h
    omega

/-- Concrete instantiation of `C10_sampled_columns` at nx = 10, density = 3. -/
theorem C10_sampled_columns_witness :
    1 ≤ 3 ∧
    ((∀ c : ℕ, c ∈ sampledColumns 10 3 ↔ (∃ i, c = 1 + i * 3) ∧ c < 10 - 1)
      ∧ (sampledColumns 10 3).Pairwise (· < ·)
      ∧ 0 ∉ sampledColumns 10 3
      ∧ 10 - 1 ∉ sampledColumns 10 3) :=
  ⟨by norm_num, C10_sampled_columns 10 3 (by norm_num)⟩

/-! ## The CWT engine (Cwt.__init__, lines 265-285, and Morlet.wf, lines 351-358)

`omega = np.array(range(0,ndata/2)+range(-ndata/2,0))*(2.0*np.pi/ndata)`;
in Python 2, `-ndata/2` is `-((ndata+1)/2)`.  For each scale the code forms
`psihat = wf(omega*scale) * sqrt(2*pi*scale)` and inverse-transforms
`psihat * fft(data)`.  `np.fft` conventions: forward kernel
`exp(-2*pi*i*k*n/N)`, inverse `(1/N)*sum exp(2*pi*i*k*n/N)`. -/

noncomputable def fftc (N : ℕ) (x : ℕ → ℂ) (k : ℕ) : ℂ :=
  ∑ m in Finset.range N, x m * Complex.exp (-(2 * (Real.pi : ℂ) * Complex.I * k * m / N))

noncomputable def ifftc (N : ℕ) (X : ℕ → ℂ) (n : ℕ) : ℂ :=
  (∑ k in Finset.range N, X k * Complex.exp (2 * (Real.pi : ℂ) * Complex.I * k * n / N)) / N

noncomputable def omegaList (N : ℕ) : List ℝ :=
  (((List.range (N / 2)).map (fun (i : ℕ) => (i : ℤ))) ++
    ((List.range ((N + 1) / 2)).map (fun (i : ℕ) => (i : ℤ) - (((N + 1) / 2 : ℕ) : ℤ)))).map
    (fun (m : ℤ) => (m : ℝ) * (2 * Real.pi / N))

def morletOmega0 : ℝ := 6.0

noncomputable def morletH (x : ℝ) : ℝ := if x < 0 then 0 else 1

noncomputable def morletWf (x : ℝ) : ℝ :=
  0.75112554 * Real.exp (-(x - morletOmega0) ^ 2 / 2) * morletH x

noncomputable def cwtRow (N : ℕ) (signal : ℕ → ℝ) (s : ℝ) (n : ℕ) : ℂ :=
  ifftc N (fun k =>
    ((morletWf ((omegaList N).getD k 0 * s) * Real.sqrt (2 * Real.pi * s) : ℝ) : ℂ) *
      fftc N (fun m => ((signal m : ℝ) : ℂ)) k) n

/-- The spec's angular-frequency bin: k·2π/N for k below N/2, (k−N)·2π/N above. -/
noncomputable def omegaClaim (N k : ℕ) : ℝ :=
  (if k < N / 2 then (k : ℝ) else (k : ℝ) - N) * (2 * Real.pi / N)

/-- The spec's one-sided Morlet frequency response. -/
noncomputable def morletClaim (x : ℝ) : ℝ :=
  if x < 0 then 0 else 0.75112554 * Real.exp (-(x - 6.0) ^ 2 / 2)

noncomputable def cwtRowClaim (N : ℕ) (signal : ℕ → ℝ) (s : ℝ) (n : ℕ) : ℂ :=
  ifftc N (fun k =>
    ((Real.sqrt (2 * Real.pi * s) * morletClaim (omegaClaim N k * s) : ℝ) : ℂ) *
      fftc N (fun m => ((signal m : ℝ) : ℂ)) k) n

theorem omegaList_eq (N : ℕ) : omegaList N = (List.range N).map (omegaClaim N) := by
  have hsplit : N = N / 2 + (N + 1) / 2 := by omega
  have h2 : ((N / 2 : ℕ) : ℝ) + (((N + 1) / 2 : ℕ) : ℝ) = (N : ℝ) := by
    exact_mod_cast congrArg (fun t : ℕ => (t : ℝ)) hsplit.symm
  have hr : List.range N =
      List.range (N / 2) ++ (List.range ((N + 1) / 2)).map (fun x => N / 2 + x) := by
    conv_lhs => rw [hsplit]
    exact List.range_add _ _
  rw [hr, List.map_append, List.map_map]
  rw [omegaList, List.map_append, List.map_map, List.map_map]
  congr 1
  · refine List.map_congr_left ?_
    intro i hi
    have hi2 : i < N / 2 := List.mem_range.1 hi
    simp only [Function.comp_apply, omegaClaim, if_pos hi2]
    push_cast
    ring
  · refine List.map_congr_left ?_
    intro i hi
    simp only [Function.comp_apply, omegaClaim]
    rw [if_neg (by omega : ¬ (N / 2 + i < N / 2))]
    simp only [Int.cast_sub, Int.cast_natCast, Nat.cast_add]
    congr 1
    linarith [h2]

theorem omegaList_getD (N k : ℕ) (hk : k < N) :
    (omegaList N).getD k 0 = omegaClaim N k := by
  rw [omegaList_eq]
  rw [List.getD_eq_getElem _ _ (by simpa using hk)]
  simp

theorem morletWf_eq_morletClaim (x : ℝ) : morletWf x = morletClaim x := by
  simp only [morletWf, morletClaim, morletH, morletOmega0]
  split_ifs with h
  · ring
  · ring

/-- Claim C2: for a real signal of length N and any scale s, the CWT row at s
is the inverse FFT of √(2π·s)·ψ(ω·s)·FFT(signal), with ω the FFT-order bins
k·2π/N (k = 0..N/2−1 then −N/2..−1) and ψ the one-sided Morlet bump:
0 for negative argument, else 0.75112554·exp(−(x−6)²/2). -/
theorem C2_cwt_row_formula (N : ℕ) (signal : ℕ → ℝ) (s : ℝ) (n : ℕ) :
    cwtRow N signal s n = cwtRowClaim N signal s n := by
  rw [cwtRow, cwtRowClaim, ifftc, ifftc]
  congr 1
  refine Finset.sum_congr rfl ?_
  intro k hk
  have hkN : k < N := Finset.mem_range.1 hk
  rw [omegaList_getD N k hkN, morletWf_eq_morletClaim]
  push_cast
  ring

/-! ## Scale truncation and physical sizes (processimage, lines 439-445)

`index = np.nonzero(scales<ny/3)` (Python 2: `ny/3` is integer division),
`scales = scales[index]*1.5*resolution`, `svarcwt = svarcwt[index]`. -/

noncomputable def scaleCut (scales svarcwt : List ℝ) (ny : ℕ) (resolution : ℝ) :
    List ℝ × List ℝ :=
  let pairs := (scales.zip svarcwt).filter (fun p => decide (p.1 < ((ny / 3 : ℕ) : ℝ)))
  (pairs.map (fun p => p.1 * 1.5 * resolution), pairs.map (fun p => p.2))

/-- Claim C6 counterexample: with column length ny = 10 the code keeps only
scales below ⌊10/3⌋ = 3, so the scale 3.2 — strictly below the claimed real
threshold 10/3 — is discarded together with its density entry. -/
theorem C6_counterexample :
    scaleCut [3.2] [1] 10 1 = ([], []) ∧ (3.2 : ℝ) < (10 : ℝ) / 3 := by
  have hd : (decide ((3.2 : ℝ) < ((10 / 3 : ℕ) : ℝ))) = false := by
    rw [decide_eq_false_iff_not]
    norm_num
  constructor
  · rw [scaleCut]
    simp only [List.zip_cons_cons, List.zip_nil_right, List.filter_cons, hd,
      Bool.false_eq_true, if_false, List.filter_nil, List.map_nil]
  · norm_num

theorem filter_zip_map_fst {β : Type} (p : ℝ → Bool) :
    ∀ (l₁ : List ℝ) (l₂ : List β), l₁.length = l₂.length →
      ((l₁.zip l₂).filter (fun q => p q.1)).map Prod.fst = l₁.filter p := by
  intro l₁
  induction l₁ with
  | nil => intro l₂ h; simp
  | cons x xs ih =>
    intro l₂ h
    cases l₂ with
    | nil => simp at h
    | cons y ys =>
      simp only [List.zip_cons_cons, List.filter_cons]
      by_cases hp : p x
      · simp [hp, ih ys (by simpa using h)]
      · simp [hp, ih ys (by simpa using h)]

/-- Claim C6 (amended): after the second normalization the aggregator retains
exactly the entries whose scale is below ⌊N/3⌋ (Python 2 integer division,
not the real quotient N/3), keeping scale/density pairs matched, and the
output sizes are the surviving scales multiplied by 1.5 and then by the
configured resolution. -/
theorem C6_amended_scale_cut (scales svarcwt : List ℝ) (ny : ℕ) (resolution : ℝ)
    (h : scales.length = svarcwt.length) :
    (scaleCut scales svarcwt ny resolution).1 =
      (scales.filter (fun s => decide (s < ((ny / 3 : ℕ) : ℝ)))).map
        (fun s => s * 1.5 * resolution)
  ∧ (scaleCut scales svarcwt ny resolution).2.length =
      (scaleCut scales svarcwt ny resolution).1.length
  ∧ ∀ x ∈ (scaleCut scales svarcwt ny resolution).1,
      ∃ sc ∈ scales, sc < ((ny / 3 : ℕ) : ℝ) ∧ x = sc * 1.5 * resolution := by
  have hfst : ((scales.zip svarcwt).filter
        (fun p => decide (p.1 < ((ny / 3 : ℕ) : ℝ)))).map Prod.fst =
      scales.filter (fun s => decide (s < ((ny / 3 : ℕ) : ℝ))) := by
    exact filter_zip_map_fst (fun s => decide (s < ((ny / 3 : ℕ) : ℝ))) scales svarcwt h
  refine ⟨?_, ?_, ?_⟩
  · rw [scaleCut]
    have : (fun p : ℝ × ℝ => p.1 * 1.5 * resolution) =
        (fun s : ℝ => s * 1.5 * resolution) ∘ Prod.fst := rfl
    simp only [this, ← List.map_map]
    rw [hfst]
  · rw [scaleCut]
    simp
  · intro x hx
    rw [scaleCut] at hx
    simp only [List.mem_map] at hx
    obtain ⟨p, hp, rfl⟩ := hx
    rw [List.mem_filter] at hp
    refine ⟨p.1, ?_, ?_, rfl⟩
    · exact (List.of_mem_zip hp.1).1
    · exact of_decide_eq_true hp.2

/-- Concrete instantiation of `C6_amended_scale_cut`. -/
theorem C6_amended_scale_cut_witness :
    ([(1 : ℝ), 5].length = [(0.5 : ℝ), 0.5].length) ∧
    ((scaleCut [(1 : ℝ), 5] [0.5, 0.5] 12 2).1 =
      (([(1 : ℝ), 5]).filter (fun s => decide (s < ((12 / 3 : ℕ) : ℝ)))).map
        (fun s => s * 1.5 * 2)
    ∧ (scaleCut [(1 : ℝ), 5] [0.5, 0.5] 12 2).2.length =
        (scaleCut [(1 : ℝ), 5] [0.5, 0.5] 12 2).1.length
    ∧ ∀ x ∈ (scaleCut [(1 : ℝ), 5] [0.5, 0.5] 12 2).1,
        ∃ sc ∈ [(1 : ℝ), 5], sc < ((12 / 3 : ℕ) : ℝ) ∧ x = sc * 1.5 * 2) :=
  ⟨by simp, C6_amended_scale_cut [1, 5] [0.5, 0.5] 12 2 (by simp)⟩

/-! ## Kaiser window shape parameter (processimage, lines 383 and 436)

`mult = 6*int(float(100*(1/np.std(region.flatten()))))` and
`svarcwt = varcwt1*sp.kaiser(len(varcwt1),mult)`.  Python's `int()`
truncates toward zero. -/

noncomputable def pyInt (x : ℝ) : ℤ := if x < 0 then -⌊-x⌋ else ⌊x⌋

noncomputable def multOf (σ : ℝ) : ℤ := 6 * pyInt (100 * (1 / σ))

noncomputable def kaiserWindowArgs (v : List ℝ) (σ : ℝ) : ℕ × ℤ := (v.length, multOf σ)

/-- Claim C7 counterexample: for an image whose intensity stddev is 1000/37
(so 100/stddev = 3.7) the code computes mult = 6·⌊3.7⌋ = 18, while the claim's
6·round(3.7) = 24. -/
theorem C7_counterexample :
    multOf (1000 / 37) = 18 ∧ 6 * round ((100 : ℝ) / (1000 / 37)) = 24 := by
  constructor
  · rw [multOf, pyInt, if_neg (by norm_num : ¬((100 : ℝ) * (1 / (1000 / 37)) < 0))]
    have hx : (100 : ℝ) * (1 / (1000 / 37)) = 37 / 10 := by norm_num
    rw [hx]
    have hf : ⌊(37 / 10 : ℝ)⌋ = (3 : ℤ) := by
      rw [Int.floor_eq_iff]
      constructor <;> norm_num
    rw [hf]
    norm_num
  · have hx : (100 : ℝ) / (1000 / 37) = 37 / 10 := by norm_num
    rw [hx, round_eq]
    have hf : ⌊(37 / 10 : ℝ) + 1 / 2⌋ = (4 : ℤ) := by
      rw [Int.floor_eq_iff]
      constructor <;> norm_num
    rw [hf]
    norm_num

/-- Claim C7 (amended): the Kaiser window applied to the normalized variance
vector has length equal to that vector's length and shape parameter
mult = 6 × ⌊100/stddev⌋ — `int()` truncation (floor for the positive
argument), not rounding to nearest. -/
theorem C7_amended_kaiser_args (v : List ℝ) (σ : ℝ) (hσ : 0 < σ) :
    kaiserWindowArgs v σ = (v.length, 6 * ⌊(100 : ℝ) / σ⌋) := by
  rw [kaiserWindowArgs, multOf, pyInt]
  have hx : (100 : ℝ) * (1 / σ) = 100 / σ := by ring
  rw [if_neg (by rw [hx, not_lt]; positivity), hx]

/-- Concrete instantiation of `C7_amended_kaiser_args` at σ = 2. -/
theorem C7_amended_kaiser_args_witness :
    (0 : ℝ) < 2 ∧ kaiserWindowArgs ([] : List ℝ) 2 = (([] : List ℝ).length, 6 * ⌊(100 : ℝ) / 2⌋) :=
  ⟨by norm_num, C7_amended_kaiser_args [] 2 (by norm_num)⟩

/-! ## The fudged integer log2 (Cwt._log2, line 249, and log2, line 232)

`int(np.log(float(x))/np.log(2.0)+0.0001)`: for positive arguments, Python's
`int()` is the floor, so this is ⌊log₂ x + 1/10000⌋. -/

noncomputable def pyLog2 (x : ℕ) : ℤ := ⌊Real.logb 2 x + 1 / 10000⌋

/-! Scale generation in log mode (Cwt._setscales, lines 294-301):
`noctave = self._log2(ndata/largestscale/2)` (Python 2 integer divisions),
`nscale = notes*noctave`, and
`scales[j] = ndata/(largestscale*(2.0**(float(nscale-1-j)/notes)))`. -/

noncomputable def nscaleLog (ndata largestscale notes : ℕ) : ℤ :=
  notes * pyLog2 (ndata / largestscale / 2)

noncomputable def scalesLog (ndata largestscale notes j : ℕ) : ℝ :=
  (ndata : ℝ) / ((largestscale : ℝ) *
    (2 : ℝ) ^ ((((nscaleLog ndata largestscale notes).toNat - 1 - j : ℕ) : ℝ) / (notes : ℝ)))

/-! Zero padding (pad2nxtpow2, lines 207-214):
`base2 = np.fix(np.log(ny)/np.log(2) + 0.4999)`; the output has
`ny + (2**(base2+1)-ny)` entries, the first ny from A, the rest zero. -/

noncomputable def base2 (ny : ℕ) : ℤ := ⌊Real.logb 2 ny + 4999 / 10000⌋

noncomputable def padLen (ny : ℕ) : ℕ := ny + (2 ^ ((base2 ny).toNat + 1) - ny)

noncomputable def pad2nxtpow2 (A : ℕ → ℝ) (ny : ℕ) : List ℝ :=
  (List.range (padLen ny)).map (fun i => if i < ny then A i else 0)

theorem logb_two_ge_of_pow_le {k : ℕ} {t : ℝ} (h : ((2 ^ k : ℕ) : ℝ) ≤ t) (ht : 0 < t) :
    (k : ℝ) ≤ Real.logb 2 t := by
  rw [Real.le_logb_iff_rpow_le (by norm_num) ht, Real.rpow_natCast]
  exact_mod_cast h

theorem logb_two_lt_of_lt_pow {k : ℕ} {t : ℝ} (h : t < ((2 ^ k : ℕ) : ℝ)) (ht : 0 < t) :
    Real.logb 2 t < (k : ℝ) := by
  rw [Real.logb_lt_iff_lt_rpow (by norm_num) ht, Real.rpow_natCast]
  exact_mod_cast h

/-- The floor of log₂ of a real t ≥ 1 is the natural log₂ of its floor. -/
theorem floor_logb_two_real (t : ℝ) (ht : 1 ≤ t) : ⌊Real.logb 2 t⌋ = Nat.log 2 ⌊t⌋₊ := by
  have ht0 : (0 : ℝ) < t := by linarith
  have hfl : 1 ≤ ⌊t⌋₊ := Nat.le_floor (by exact_mod_cast ht)
  have h1 : ((2 ^ Nat.log 2 ⌊t⌋₊ : ℕ) : ℝ) ≤ t :=
    le_trans (by exact_mod_cast Nat.pow_log_le_self 2 (by omega)) (Nat.floor_le ht0.le)
  have h2 : t < ((2 ^ (Nat.log 2 ⌊t⌋₊ + 1) : ℕ) : ℝ) := by
    have hb : ⌊t⌋₊ + 1 ≤ (2 : ℕ) ^ (Nat.log 2 ⌊t⌋₊ + 1) := Nat.lt_pow_succ_log_self (by norm_num) _
    calc t < (⌊t⌋₊ : ℝ) + 1 := Nat.lt_floor_add_one t
      _ ≤ _ := by exact_mod_cast hb
  rw [Int.floor_eq_iff]
  refine ⟨?_, ?_⟩
  · have := logb_two_ge_of_pow_le h1 ht0
    push_cast
    linarith
  · have := logb_two_lt_of_lt_pow h2 ht0
    push_cast at this ⊢
    linarith

theorem floor_logb_two_nat (x : ℕ) (hx : 1 ≤ x) :
    ⌊Real.logb 2 (x : ℝ)⌋ = Nat.log 2 x := by
  have := floor_logb_two_real (x : ℝ) (by exact_mod_cast hx)
  rwa [Nat.floor_natCast] at this

/-- Below 16383 the +0.0001 fudge is harmless: the fudged integer log2 equals
the true floor of log₂. -/
theorem pyLog2_eq_log (x : ℕ) (hx1 : 1 ≤ x) (hx : x ≤ 16382) :
    pyLog2 x = Nat.log 2 x := by
  have hx0 : (0 : ℝ) < x := by exact_mod_cast Nat.lt_of_lt_of_le Nat.zero_lt_one hx1
  have hpowle : ((2 ^ Nat.log 2 x : ℕ) : ℝ) ≤ (x : ℝ) := by
    exact_mod_cast Nat.pow_log_le_self 2 (by omega)
  have hklow := logb_two_ge_of_pow_le hpowle hx0
  have hxm : x < 2 ^ (Nat.log 2 x + 1) := Nat.lt_pow_succ_log_self (by norm_num) x
  have hkle : Nat.log 2 x + 1 ≤ 14 := by
    have h14 : x < 2 ^ 14 := by norm_num; omega
    have := Nat.log_lt_of_lt_pow (by omega : x ≠ 0) h14
    omega
  have hmpos : 0 < 2 ^ (Nat.log 2 x + 1) := pow_pos (by norm_num) _
  have hgap : 10000 * (2 ^ (Nat.log 2 x + 1) - x) ≥ 20000 ∨ (2 : ℕ) ^ (Nat.log 2 x + 1) ≤ 8192 := by
    by_cases h12 : Nat.log 2 x + 1 ≤ 13
    · right
      calc (2 : ℕ) ^ (Nat.log 2 x + 1) ≤ 2 ^ 13 := Nat.pow_le_pow_right (by norm_num) h12
        _ = 8192 := by norm_num
    · left
      have hk13 : Nat.log 2 x + 1 = 14 := by omega
      have hm : (2 : ℕ) ^ (Nat.log 2 x + 1) = 16384 := by rw [hk13]; norm_num
      omega
  have hl2pos : (0 : ℝ) < Real.log 2 := Real.log_pos (by norm_num)
  have hl2lt : Real.log 2 < 0.6931471808 := Real.log_two_lt_d9
  have hmR : (0 : ℝ) < ((2 ^ (Nat.log 2 x + 1) : ℕ) : ℝ) := by exact_mod_cast hmpos
  have hxltm : (x : ℝ) < ((2 ^ (Nat.log 2 x + 1) : ℕ) : ℝ) := by exact_mod_cast hxm
  have hcross : ((2 ^ (Nat.log 2 x + 1) : ℕ) : ℝ) * Real.log 2 <
      10000 * (((2 ^ (Nat.log 2 x + 1) : ℕ) : ℝ) - x) := by
    rcases hgap with hg | hg
    · have h2' : (2 : ℝ) ≤ ((2 ^ (Nat.log 2 x + 1) : ℕ) : ℝ) - x := by
        have hn : x + 2 ≤ 2 ^ (Nat.log 2 x + 1) := by omega
        have := (Nat.cast_le (α := ℝ)).2 hn
        push_cast at this ⊢
        linarith
      have hm16 : ((2 ^ (Nat.log 2 x + 1) : ℕ) : ℝ) ≤ 16384 := by
        have hn : (2 : ℕ) ^ (Nat.log 2 x + 1) ≤ 16384 := by
          calc (2 : ℕ) ^ (Nat.log 2 x + 1) ≤ 2 ^ 14 := Nat.pow_le_pow_right (by norm_num) hkle
            _ = 16384 := by norm_num
        exact_mod_cast hn
      nlinarith
    · have h1' : (1 : ℝ) ≤ ((2 ^ (Nat.log 2 x + 1) : ℕ) : ℝ) - x := by
        have hn : x + 1 ≤ 2 ^ (Nat.log 2 x + 1) := by omega
        have := (Nat.cast_le (α := ℝ)).2 hn
        push_cast at this ⊢
        linarith
      have hm8 : ((2 ^ (Nat.log 2 x + 1) : ℕ) : ℝ) ≤ 8192 := by exact_mod_cast hg
      nlinarith
  have hlogm : Real.log ((2 ^ (Nat.log 2 x + 1) : ℕ) : ℝ) =
      ((Nat.log 2 x : ℝ) + 1) * Real.log 2 := by
    rw [show ((2 ^ (Nat.log 2 x + 1) : ℕ) : ℝ) = (2 : ℝ) ^ (Nat.log 2 x + 1) by push_cast; ring,
      Real.log_pow]
    push_cast
    ring
  have hlogx : Real.log x ≤ Real.log ((2 ^ (Nat.log 2 x + 1) : ℕ) : ℝ) +
      ((x : ℝ) - ((2 ^ (Nat.log 2 x + 1) : ℕ) : ℝ)) / ((2 ^ (Nat.log 2 x + 1) : ℕ) : ℝ) := by
    have hdiv : Real.log ((x : ℝ) / ((2 ^ (Nat.log 2 x + 1) : ℕ) : ℝ)) ≤
        (x : ℝ) / ((2 ^ (Nat.log 2 x + 1) : ℕ) : ℝ) - 1 :=
      Real.log_le_sub_one_of_pos (by positivity)
    rw [Real.log_div (ne_of_gt hx0) (ne_of_gt hmR)] at hdiv
    have he : (x : ℝ) / ((2 ^ (Nat.log 2 x + 1) : ℕ) : ℝ) - 1 =
        ((x : ℝ) - ((2 ^ (Nat.log 2 x + 1) : ℕ) : ℝ)) / ((2 ^ (Nat.log 2 x + 1) : ℕ) : ℝ) := by
      field_simp
    rw [he] at hdiv
    linarith
  have hfrac : ((x : ℝ) - ((2 ^ (Nat.log 2 x + 1) : ℕ) : ℝ)) / ((2 ^ (Nat.log 2 x + 1) : ℕ) : ℝ) <
      -(Real.log 2 / 10000) := by
    rw [div_lt_iff₀ hmR]
    nlinarith
  have hup : Real.logb 2 x + 1 / 10000 < (Nat.log 2 x : ℝ) + 1 := by
    have hkey : Real.log x < ((Nat.log 2 x : ℝ) + 1 - 1 / 10000) * Real.log 2 := by
      calc Real.log x ≤ _ := hlogx
        _ < ((Nat.log 2 x : ℝ) + 1) * Real.log 2 - Real.log 2 / 10000 := by
            rw [hlogm]; linarith
        _ = ((Nat.log 2 x : ℝ) + 1 - 1 / 10000) * Real.log 2 := by ring
    have hdd : Real.log x / Real.log 2 < (Nat.log 2 x : ℝ) + 1 - 1 / 10000 :=
      (div_lt_iff₀ hl2pos).2 hkey
    rw [Real.logb]
    linarith
  rw [pyLog2, Int.floor_eq_iff]
  constructor
  · push_cast
    linarith
  · push_cast
    linarith

/-- At x = 16383 the +0.0001 fudge pushes the truncated log over the next
integer: `_log2(16383)` is 14, while ⌊log₂ 16383⌋ = 13. -/
theorem pyLog2_16383 : pyLog2 16383 = 14 := by
  have hl2pos : (0 : ℝ) < Real.log 2 := Real.log_pos (by norm_num)
  have hl2gt : (0.6931471803 : ℝ) < Real.log 2 := Real.log_two_gt_d9
  have hlog16384 : Real.log (16384 : ℝ) = 14 * Real.log 2 := by
    rw [show (16384 : ℝ) = 2 ^ (14 : ℕ) by norm_num, Real.log_pow]
    push_cast
    ring
  have hd : Real.log ((16384 : ℝ) / 16383) ≤ 1 / 16383 := by
    have h := Real.log_le_sub_one_of_pos (show (0 : ℝ) < 16384 / 16383 by norm_num)
    have he : (16384 : ℝ) / 16383 - 1 = 1 / 16383 := by norm_num
    linarith
  have hdpos : 0 < Real.log ((16384 : ℝ) / 16383) := Real.log_pos (by norm_num)
  have hsplit : Real.log (16383 : ℝ) = 14 * Real.log 2 - Real.log ((16384 : ℝ) / 16383) := by
    rw [Real.log_div (by norm_num) (by norm_num), hlog16384]
    ring
  have hcast : ((16383 : ℕ) : ℝ) = (16383 : ℝ) := by norm_num
  rw [pyLog2, hcast, Int.floor_eq_iff]
  constructor
  · push_cast
    rw [Real.logb, hsplit]
    have hdlt : Real.log ((16384 : ℝ) / 16383) < Real.log 2 / 10000 := by
      calc Real.log ((16384 : ℝ) / 16383) ≤ 1 / 16383 := hd
        _ < 0.6931471803 / 10000 := by norm_num
        _ < Real.log 2 / 10000 := by linarith
    have hkey : (14 - 1 / 10000 : ℝ) ≤
        (14 * Real.log 2 - Real.log ((16384 : ℝ) / 16383)) / Real.log 2 := by
      rw [le_div_iff₀ hl2pos]
      nlinarith
    linarith
  · push_cast
    rw [Real.logb, hsplit]
    have hkey : (14 * Real.log 2 - Real.log ((16384 : ℝ) / 16383)) / Real.log 2 < 14 := by
      rw [div_lt_iff₀ hl2pos]
      nlinarith
    linarith

/-- Claim C1 counterexample: at N = 32766, largestScaleDivisor = 1, notes = 1
(so N/1/2 = 16383, within the claim's hypotheses since 16383 ≥ 2·2), the code
produces nscale = 14 while the claimed notes × ⌊log₂(N/1/2)⌋ is 13. -/
theorem C1_counterexample :
    nscaleLog 32766 1 1 = 14 ∧
      (1 : ℤ) * ⌊Real.logb 2 ((32766 : ℝ) / (1 : ℝ) / 2)⌋ = 13 := by
  have hdiv : (32766 : ℕ) / 1 / 2 = 16383 := by norm_num
  constructor
  · rw [nscaleLog, hdiv, pyLog2_16383]
    norm_num
  · have hcast : (32766 : ℝ) / (1 : ℝ) / 2 = ((16383 : ℕ) : ℝ) := by norm_num
    rw [hcast, floor_logb_two_nat 16383 (by norm_num)]
    have hlog : Nat.log 2 16383 = 13 := Nat.log_eq_of_pow_le_of_lt_pow (by norm_num) (by norm_num)
    rw [hlog]
    norm_num

theorem floor_cast_div_div (N L : ℕ) : ⌊(N : ℝ) / (L : ℝ) / 2⌋₊ = N / L / 2 := by
  rw [show (2 : ℝ) = ((2 : ℕ) : ℝ) by norm_num, Nat.floor_div_nat, Nat.floor_div_nat,
    Nat.floor_natCast]

/-- Claim C1 (amended): provided ⌊N/largestScaleDivisor/2⌋ ≤ 16382 (so that
the +0.0001 fudge in the integer log2 is harmless), log-mode scale generation
yields nscale = notes × ⌊log₂(N/largestScaleDivisor/2)⌋ scales,
scale[j] = N/(largestScaleDivisor·2^((nscale−1−j)/notes)) for every j < nscale,
and the smallest scale, scale[0], is at least 2. -/
theorem C1_amended_log_scales (N L notes : ℕ) (hL : 1 ≤ L) (hnotes : 1 ≤ notes)
    (hx2 : 2 ≤ N / L / 2) (hxle : N / L / 2 ≤ 16382) :
    nscaleLog N L notes = notes * ⌊Real.logb 2 ((N : ℝ) / (L : ℝ) / 2)⌋
  ∧ (∀ j, j < (nscaleLog N L notes).toNat →
      scalesLog N L notes j = (N : ℝ) /
        ((L : ℝ) * (2 : ℝ) ^
          ((((notes : ℤ) * ⌊Real.logb 2 ((N : ℝ) / (L : ℝ) / 2)⌋ - 1 - (j : ℤ) : ℤ) : ℝ) /
            (notes : ℝ))))
  ∧ 2 ≤ scalesLog N L notes 0 := by
  have hL0 : (0 : ℝ) < L := by exact_mod_cast hL
  have hnotes0 : (0 : ℝ) < notes := by exact_mod_cast hnotes
  have hN2 : 2 ≤ N := le_trans hx2 (le_trans (Nat.div_le_self _ _) (Nat.div_le_self _ _))
  have hN0 : (0 : ℝ) < N := by exact_mod_cast (by omega : 0 < N)
  have ht0 : (0 : ℝ) ≤ (N : ℝ) / (L : ℝ) / 2 := by positivity
  have hflo : ⌊(N : ℝ) / (L : ℝ) / 2⌋₊ = N / L / 2 := floor_cast_div_div N L
  have hxler : ((N / L / 2 : ℕ) : ℝ) ≤ (N : ℝ) / (L : ℝ) / 2 := by
    rw [← hflo]
    exact Nat.floor_le ht0
  have ht1 : (1 : ℝ) ≤ (N : ℝ) / (L : ℝ) / 2 := by
    have h2 : (2 : ℝ) ≤ ((N / L / 2 : ℕ) : ℝ) := by exact_mod_cast hx2
    linarith
  have hclaimfloor : ⌊Real.logb 2 ((N : ℝ) / (L : ℝ) / 2)⌋ = Nat.log 2 (N / L / 2) := by
    rw [floor_logb_two_real _ ht1, hflo]
  have hpy : pyLog2 (N / L / 2) = Nat.log 2 (N / L / 2) := pyLog2_eq_log _ (by omega) hxle
  have hns : nscaleLog N L notes = (notes : ℤ) * (Nat.log 2 (N / L / 2) : ℤ) := by
    rw [nscaleLog, hpy]
  have htn : (nscaleLog N L notes).toNat = notes * Nat.log 2 (N / L / 2) := by
    rw [hns, show ((notes : ℤ) * (Nat.log 2 (N / L / 2) : ℤ)) =
      ((notes * Nat.log 2 (N / L / 2) : ℕ) : ℤ) by push_cast; ring, Int.toNat_natCast]
  refine ⟨by rw [hns, hclaimfloor], ?_, ?_⟩
  · intro j hj
    rw [htn] at hj
    have hcast : ((notes * Nat.log 2 (N / L / 2) - 1 - j : ℕ) : ℝ) =
        (((notes : ℤ) * ⌊Real.logb 2 ((N : ℝ) / (L : ℝ) / 2)⌋ - 1 - (j : ℤ) : ℤ) : ℝ) := by
      rw [hclaimfloor]
      have hz : ((notes * Nat.log 2 (N / L / 2) - 1 - j : ℕ) : ℤ) =
          (notes : ℤ) * (Nat.log 2 (N / L / 2) : ℤ) - 1 - (j : ℤ) := by omega
      exact_mod_cast hz
    rw [scalesLog, htn, hcast]
  · rw [scalesLog, htn]
    simp only [Nat.sub_zero]
    have hk1 : 1 ≤ Nat.log 2 (N / L / 2) := by
      have h21 : 2 ^ 1 ≤ N / L / 2 := by omega
      exact (Nat.pow_le_iff_le_log (by norm_num) (by omega)).1 h21
    have hkpow : ((2 ^ Nat.log 2 (N / L / 2) : ℕ) : ℝ) ≤ ((N / L / 2 : ℕ) : ℝ) := by
      exact_mod_cast Nat.pow_log_le_self 2 (by omega)
    have hexple : (((notes * Nat.log 2 (N / L / 2) - 1 : ℕ) : ℝ)) / (notes : ℝ) ≤
        (Nat.log 2 (N / L / 2) : ℝ) := by
      rw [div_le_iff₀ hnotes0]
      have h1 : (notes * Nat.log 2 (N / L / 2) - 1 : ℕ) ≤ notes * Nat.log 2 (N / L / 2) := by
        omega
      calc ((notes * Nat.log 2 (N / L / 2) - 1 : ℕ) : ℝ) ≤
          ((notes * Nat.log 2 (N / L / 2) : ℕ) : ℝ) := by exact_mod_cast h1
        _ = (Nat.log 2 (N / L / 2) : ℝ) * (notes : ℝ) := by push_cast; ring
    have h2e : (2 : ℝ) ^ ((((notes * Nat.log 2 (N / L / 2) - 1 : ℕ) : ℝ)) / (notes : ℝ)) ≤
        (2 : ℝ) ^ ((Nat.log 2 (N / L / 2) : ℕ) : ℝ) :=
      Real.rpow_le_rpow_of_exponent_le (by norm_num) hexple
    have h2k : (2 : ℝ) ^ ((Nat.log 2 (N / L / 2) : ℕ) : ℝ) ≤ (N : ℝ) / (L : ℝ) / 2 := by
      rw [Real.rpow_natCast]
      calc (2 : ℝ) ^ Nat.log 2 (N / L / 2) = ((2 ^ Nat.log 2 (N / L / 2) : ℕ) : ℝ) := by
            push_cast; ring
        _ ≤ ((N / L / 2 : ℕ) : ℝ) := hkpow
        _ ≤ (N : ℝ) / (L : ℝ) / 2 := hxler
    have hD0 : (0 : ℝ) <
        (L : ℝ) * (2 : ℝ) ^ ((((notes * Nat.log 2 (N / L / 2) - 1 : ℕ) : ℝ)) / (notes : ℝ)) := by
      positivity
    rw [le_div_iff₀ hD0]
    have hDle : (L : ℝ) * (2 : ℝ) ^ ((((notes * Nat.log 2 (N / L / 2) - 1 : ℕ) : ℝ)) / (notes : ℝ))
        ≤ (L : ℝ) * ((N : ℝ) / (L : ℝ) / 2) :=
      mul_le_mul_of_nonneg_left (le_trans h2e h2k) hL0.le
    have hLN : (L : ℝ) * ((N : ℝ) / (L : ℝ) / 2) = (N : ℝ) / 2 := by
      field_simp
      ring
    linarith

/-- Concrete instantiation of `C1_amended_log_scales` at N = 32, L = 1, notes = 1. -/
theorem C1_amended_log_scales_witness :
    (1 ≤ 1 ∧ 2 ≤ 32 / 1 / 2 ∧ 32 / 1 / 2 ≤ 16382) ∧
    (nscaleLog 32 1 1 = 1 * ⌊Real.logb 2 (((32 : ℕ) : ℝ) / ((1 : ℕ) : ℝ) / 2)⌋
  ∧ (∀ j, j < (nscaleLog 32 1 1).toNat →
      scalesLog 32 1 1 j = ((32 : ℕ) : ℝ) /
        (((1 : ℕ) : ℝ) * (2 : ℝ) ^
          (((((1 : ℕ) : ℤ) * ⌊Real.logb 2 (((32 : ℕ) : ℝ) / ((1 : ℕ) : ℝ) / 2)⌋ - 1 -
            (j : ℤ) : ℤ) : ℝ) / ((1 : ℕ) : ℝ))))
  ∧ 2 ≤ scalesLog 32 1 1 0) :=
  ⟨⟨le_rfl, by norm_num, by norm_num⟩,
    C1_amended_log_scales 32 1 1 le_rfl le_rfl (by norm_num) (by norm_num)⟩

/-- The padded length is `2^(base2+1)`, a power of two that is at least ny. -/
theorem padLen_facts (ny : ℕ) (h : 1 ≤ ny) :
    padLen ny = 2 ^ ((base2 ny).toNat + 1) ∧ ny ≤ 2 ^ ((base2 ny).toNat + 1) := by
  have hk : (Nat.log 2 ny : ℤ) ≤ base2 ny := by
    rw [base2, Int.le_floor]
    have h1 : ((Nat.log 2 ny : ℕ) : ℝ) ≤ Real.logb 2 ny :=
      logb_two_ge_of_pow_le (by exact_mod_cast Nat.pow_log_le_self 2 (by omega))
        (by exact_mod_cast (by omega : 0 < ny))
    push_cast
    linarith
  have hlt : ny < 2 ^ ((base2 ny).toNat + 1) := by
    have h1 : ny < 2 ^ (Nat.log 2 ny + 1) := Nat.lt_pow_succ_log_self (by norm_num) ny
    have h3 := Int.toNat_le_toNat hk
    rw [Int.toNat_natCast] at h3
    exact lt_of_lt_of_le h1 (Nat.pow_le_pow_right (by norm_num) (by omega))
  constructor
  · rw [padLen]
    omega
  · omega

/-- base2 at 3: ⌊log₂ 3 + 0.4999⌋ = 2, because log₂ 3 ≈ 1.585 lands in the
upper half of its octave. -/
theorem base2_three : base2 3 = 2 := by
  have hl2pos : (0 : ℝ) < Real.log 2 := Real.log_pos (by norm_num)
  have hl2lt : Real.log 2 < 0.6931471808 := Real.log_two_lt_d9
  have hl2gt : (0.6931471803 : ℝ) < Real.log 2 := Real.log_two_gt_d9
  have h98le : Real.log ((9 : ℝ) / 8) ≤ 1 / 8 := by
    have h := Real.log_le_sub_one_of_pos (show (0 : ℝ) < 9 / 8 by norm_num)
    have he : (9 : ℝ) / 8 - 1 = 1 / 8 := by norm_num
    linarith
  have h98ge : (1 : ℝ) / 9 ≤ Real.log ((9 : ℝ) / 8) := by
    have h := Real.log_le_sub_one_of_pos (show (0 : ℝ) < 8 / 9 by norm_num)
    rw [show (8 : ℝ) / 9 = ((9 : ℝ) / 8)⁻¹ by norm_num, Real.log_inv] at h
    have he : ((9 : ℝ) / 8)⁻¹ - 1 = -(1 / 9) := by norm_num
    linarith
  have hlog3 : 2 * Real.log (3 : ℝ) = 3 * Real.log 2 + Real.log ((9 : ℝ) / 8) := by
    have h9 : Real.log (9 : ℝ) = 2 * Real.log 3 := by
      rw [show (9 : ℝ) = 3 ^ (2 : ℕ) by norm_num, Real.log_pow]
      push_cast
      ring
    have h8 : Real.log (8 : ℝ) = 3 * Real.log 2 := by
      rw [show (8 : ℝ) = 2 ^ (3 : ℕ) by norm_num, Real.log_pow]
      push_cast
      ring
    have hd : Real.log ((9 : ℝ) / 8) = Real.log 9 - Real.log 8 :=
      Real.log_div (by norm_num) (by norm_num)
    rw [hd, h9, h8]
    ring
  have hcast : ((3 : ℕ) : ℝ) = (3 : ℝ) := by norm_num
  rw [base2, hcast, Int.floor_eq_iff]
  constructor
  · push_cast
    rw [Real.logb]
    have hkey : (15001 / 10000 : ℝ) * Real.log 2 ≤ Real.log 3 := by linarith
    have hdd : (15001 / 10000 : ℝ) ≤ Real.log 3 / Real.log 2 := (le_div_iff₀ hl2pos).2 hkey
    linarith
  · push_cast
    rw [Real.logb]
    have hkey : Real.log 3 < (25001 / 10000 : ℝ) * Real.log 2 := by linarith
    have hdd : Real.log 3 / Real.log 2 < (25001 / 10000 : ℝ) := (div_lt_iff₀ hl2pos).2 hkey
    linarith

theorem padLen_three : padLen 3 = 8 := by
  rw [padLen, base2_three]
  decide

/-- Claim C5 counterexample: for a vector of length ny = 3 the padded length
is 8, although 4 = 2² is already a power of two ≥ 3 — so the total length is
not the smallest power of two ≥ ny. -/
theorem C5_counterexample :
    (pad2nxtpow2 (fun i => (i : ℝ)) 3).length = 8 ∧ (3 : ℕ) ≤ 2 ^ 2 ∧ (2 : ℕ) ^ 2 < 8 := by
  refine ⟨?_, by norm_num, by norm_num⟩
  rw [pad2nxtpow2, List.length_map, List.length_range, padLen_three]

/-- Claim C5 (amended): pad2nxtpow2 returns a vector whose first ny entries
equal A and whose remaining entries are zero, of total length
2^(⌊log₂ ny + 0.4999⌋ + 1) — always a power of two that is ≥ ny, but not in
general the smallest such power (for ny in the upper part of its octave, or a
power of two, it is twice that); truncating back to the first ny entries
recovers the original samples exactly. -/
theorem C5_amended_pad (A : ℕ → ℝ) (ny : ℕ) (h : 1 ≤ ny) :
    (pad2nxtpow2 A ny).length = 2 ^ ((base2 ny).toNat + 1)
  ∧ ny ≤ (pad2nxtpow2 A ny).length
  ∧ (∀ i, i < ny → (pad2nxtpow2 A ny).getD i 0 = A i)
  ∧ (∀ i, ny ≤ i → (pad2nxtpow2 A ny).getD i 0 = 0)
  ∧ (pad2nxtpow2 A ny).take ny = (List.range ny).map A := by
  obtain ⟨hpe, hple⟩ := padLen_facts ny h
  have hlen : (pad2nxtpow2 A ny).length = padLen ny := by
    rw [pad2nxtpow2, List.length_map, List.length_range]
  have hplen : ny ≤ padLen ny := by omega
  refine ⟨by rw [hlen, hpe], by omega, ?_, ?_, ?_⟩
  · intro i hi
    have hi' : i < padLen ny := lt_of_lt_of_le hi hplen
    rw [pad2nxtpow2, List.getD_eq_getElem _ _ (by simpa using hi')]
    simp only [List.getElem_map, List.getElem_range, if_pos hi]
  · intro i hi
    by_cases hip : i < padLen ny
    · rw [pad2nxtpow2, List.getD_eq_getElem _ _ (by simpa using hip)]
      simp only [List.getElem_map, List.getElem_range]
      rw [if_neg (by omega)]
    · exact List.getD_eq_default _ _ (by omega)
  · rw [pad2nxtpow2, ← List.map_take, List.take_range]
    have hmin : ny ⊓ padLen ny = ny := by omega
    rw [hmin]
    refine List.map_congr_left ?_
    intro i hi
    rw [if_pos (List.mem_range.1 hi)]

/-- Concrete instantiation of `C5_amended_pad` at ny = 1. -/
theorem C5_amended_pad_witness :
    1 ≤ 1 ∧
    ((pad2nxtpow2 (fun _ => (5 : ℝ)) 1).length = 2 ^ ((base2 1).toNat + 1)
  ∧ 1 ≤ (pad2nxtpow2 (fun _ => (5 : ℝ)) 1).length
  ∧ (∀ i, i < 1 → (pad2nxtpow2 (fun _ => (5 : ℝ)) 1).getD i 0 = (fun _ => (5 : ℝ)) i)
  ∧ (∀ i, 1 ≤ i → (pad2nxtpow2 (fun _ => (5 : ℝ)) 1).getD i 0 = 0)
  ∧ (pad2nxtpow2 (fun _ => (5 : ℝ)) 1).take 1 = (List.range 1).map (fun _ => (5 : ℝ))) :=
  ⟨le_rfl, C5_amended_pad (fun _ => (5 : ℝ)) 1 le_rfl⟩
